import Mathlib

/-!
Verification of the bootloader packer (src/packer.c).

The program is a three-stage pipeline: a byte-wise XOR cipher (`encrypt`),
a run-length compressor (`compress`), and sector-alignment padding
(`pad_to_sector`).  Buffers are shallowly embedded as `List Nat` whose
elements stand for `unsigned char` values (each `< 256`); byte stores go
through `% 256` exactly where the C type truncates.  File I/O in `main` is
modelled as an event trace.
-/

namespace Packer

/-- XOR encryption key (`#define XOR_KEY 0x69`). -/
def XOR_KEY : Nat := 0x69

/-- Sector size (`#define SECTOR_SIZE 512`). -/
def SECTOR_SIZE : Nat := 512

/-- `data[i] ^= key` over a whole buffer: the XOR transform with an arbitrary
single-byte key.  The `% 256` models storage into `unsigned char`. -/
def xorTransform (key : Nat) (data : List Nat) : List Nat :=
  data.map (fun b => (b ^^^ key) % 256)

/-- `encrypt` from src/packer.c lines 71-75: XOR every byte with `XOR_KEY`. -/
def encrypt (data : List Nat) : List Nat :=
  xorTransform XOR_KEY data

/-- The inner `while` of `compress` (src/packer.c line 92): how many leading
elements of `l` equal `byte`, counting at most `fuel` of them.  In the source
`fuel = 254` because `repeats` starts at 1 and is bounded by `repeats < 255`. -/
def takeRun (byte : Nat) (fuel : Nat) (l : List Nat) : Nat :=
  match fuel, l with
  | 0, _ => 0
  | _, [] => 0
  | f + 1, x :: xs => if x = byte then 1 + takeRun byte f xs else 0

/-- Worker for the run scan, structurally recursive on a fuel bound so that it
evaluates by kernel reduction.  Each outer iteration consumes at least one
byte, so any `fuel ≥ l.length` yields the full scan (`rleEncodeFuel_congr`). -/
def rleEncodeFuel : Nat → List Nat → List (Nat × Nat)
  | 0, _ => []
  | _ + 1, [] => []
  | fuel + 1, b :: rest =>
    let extra := takeRun b 254 rest
    (1 + extra, b) :: rleEncodeFuel fuel (rest.drop extra)

/-- The run sequence emitted by `compress` (src/packer.c lines 87-100): at each
position take the current byte, extend the run while the next byte matches and
`repeats < 255`, emit `(repeats, byte)` and skip past the run. -/
def rle_encode (l : List Nat) : List (Nat × Nat) :=
  rleEncodeFuel l.length l

/-- Serialization of runs as written by `compress`: for each run first the
count byte (`fputc(repeats, output)`) then the value byte (`fputc(byte, output)`). -/
def serializeRuns (runs : List (Nat × Nat)) : List Nat :=
  (runs.map (fun r => [r.1, r.2])).flatten

/-- The byte stream the C function `compress` writes for a given buffer. -/
def compress (data : List Nat) : List Nat :=
  serializeRuns (rle_encode data)

/-- Expansion of a run sequence back into bytes: each `(count, value)` becomes
`count` copies of `value`, concatenated in order (the decoder of the spec). -/
def rleDecode (runs : List (Nat × Nat)) : List Nat :=
  (runs.map (fun r => List.replicate r.1 r.2)).flatten

/-- `pad_to_sector` from src/packer.c lines 109-118: compute
`padding_needed = SECTOR_SIZE - file_size % SECTOR_SIZE`; unless that equals
`SECTOR_SIZE`, write that many zero bytes and add it to `file_size`; return
the final size in sectors.  The result is (zero bytes written, sectors). -/
def pad_to_sector (file_size : Nat) : List Nat × Nat :=
  let padding_needed := SECTOR_SIZE - file_size % SECTOR_SIZE
  if padding_needed ≠ SECTOR_SIZE then
    (List.replicate padding_needed 0, (file_size + padding_needed) / SECTOR_SIZE)
  else
    ([], file_size / SECTOR_SIZE)

/-- The bytes of `compress` applied to the encrypted input: the pre-padding
content of the output file (`compressed_size` is its length). -/
def compressedBytes (input : List Nat) : List Nat :=
  compress (encrypt input)

/-- The full output file: encrypt, compress, then pad the stream to a sector
boundary (src/packer.c lines 179-188). -/
def pack (input : List Nat) : List Nat :=
  compressedBytes input ++ (pad_to_sector (compressedBytes input).length).1

/-- The sector count reported by `pad_to_sector` inside `main`. -/
def sectors (input : List Nat) : Nat :=
  (pad_to_sector (compressedBytes input).length).2

/-- The integer values printed by the success path of `main`: original size,
compressed (pre-padding) size, and total sectors. -/
def report (input : List Nat) : Nat × Nat × Nat :=
  (input.length, (compressedBytes input).length, sectors input)

/-- Observable file events of `main`, for the error-handling model. -/
inductive Event where
  | openIn
  | openOut
  | errMsg
  | closeIn
  | closeOut
  | writeOut (b : Nat)
deriving DecidableEq

/-- Control flow of `main` (src/packer.c lines 140-201) on the path where both
files open and the read succeeds, as the event trace plus the exit code.  An
empty input (length 0) is reported, both handles are closed and the process
exits 1 before anything is written; otherwise the input handle is closed after
reading, the packed bytes are written and the process exits 0. -/
def mainRun (input : List Nat) : List Event × Nat :=
  if input.length = 0 then
    ([Event.openIn, Event.openOut, Event.errMsg, Event.closeIn, Event.closeOut], 1)
  else
    (([Event.openIn, Event.openOut, Event.closeIn]
        ++ (pack input).map Event.writeOut) ++ [Event.closeOut], 0)

/-- State of the `compress` loop for the frame property: the buffer, the scan
index `i`, and the bytes written so far. -/
structure CompressState where
  data : List Nat
  i : Nat
  out : List Nat

/-- One iteration of the `for` loop of `compress`: read `data[i]`, count the
run, write the two bytes, advance `i`.  The buffer field is copied unchanged,
mirroring that the loop body contains no store into `data`. -/
def compressStep (s : CompressState) : CompressState :=
  let byte := s.data.getD s.i 0
  let repeats := 1 + takeRun byte 254 (s.data.drop (s.i + 1))
  { data := s.data, i := s.i + repeats, out := s.out ++ [repeats, byte] }

/-- Run the `compress` loop to completion (`i < length` is the loop guard). -/
def compressRun (s : CompressState) : CompressState :=
  if s.i < s.data.length then compressRun (compressStep s) else s
termination_by s.data.length - s.i
decreasing_by
  simp only [compressStep]
  omega

/-- Unfolding of `serializeRuns` on a cons: count byte, then value byte. -/
theorem serializeRuns_cons (c v : Nat) (rs : List (Nat × Nat)) :
    serializeRuns ((c, v) :: rs) = c :: v :: serializeRuns rs := rfl

/-- Unfolding of `rleDecode` on a cons. -/
theorem rleDecode_cons (c v : Nat) (rs : List (Nat × Nat)) :
    rleDecode ((c, v) :: rs) = List.replicate c v ++ rleDecode rs := rfl

/-- The run extension never exceeds its fuel (`repeats < 255` in the source). -/
theorem takeRun_le_fuel (b fuel : Nat) (l : List Nat) : takeRun b fuel l ≤ fuel := by
  induction l generalizing fuel with
  | nil => cases fuel <;> simp [takeRun]
  | cons x xs ih =>
    cases fuel with
    | zero => simp [takeRun]
    | succ f =>
      simp only [takeRun]
      split
      · have := ih f
        omega
      · omega

/-- The run extension never runs past the end of the buffer. -/
theorem takeRun_le_length (b fuel : Nat) (l : List Nat) : takeRun b fuel l ≤ l.length := by
  induction l generalizing fuel with
  | nil => cases fuel <;> simp [takeRun]
  | cons x xs ih =>
    cases fuel with
    | zero => simp [takeRun]
    | succ f =>
      simp only [takeRun, List.length_cons]
      split
      · have := ih f
        omega
      · omega

/-- Fuel irrelevance of the run scan: any fuel at least the buffer length
produces the same run sequence. -/
theorem rleEncodeFuel_congr (f₁ : Nat) : ∀ (f₂ : Nat) (l : List Nat),
    l.length ≤ f₁ → l.length ≤ f₂ → rleEncodeFuel f₁ l = rleEncodeFuel f₂ l := by
  induction f₁ with
  | zero =>
    intro f₂ l h1 _
    have hl : l = [] := List.length_eq_zero.mp (by omega)
    subst hl
    cases f₂ <;> rfl
  | succ f ih =>
    intro f₂ l h1 h2
    match l with
    | [] => cases f₂ <;> rfl
    | b :: rest =>
      cases f₂ with
      | zero =>
        rw [List.length_cons] at h2
        omega
      | succ g =>
        rw [List.length_cons] at h1 h2
        simp only [rleEncodeFuel]
        congr 1
        have hd : (rest.drop (takeRun b 254 rest)).length ≤ rest.length := by
          rw [List.length_drop]
          omega
        exact ih g (rest.drop (takeRun b 254 rest)) (by omega) (by omega)

/-- The scan emits nothing on the empty buffer. -/
theorem rle_encode_nil : rle_encode [] = [] := rfl

/-- One step of the scan: emit the capped run at the head, then continue
after it. -/
theorem rle_encode_cons (b : Nat) (rest : List Nat) :
    rle_encode (b :: rest)
      = (1 + takeRun b 254 rest, b) :: rle_encode (rest.drop (takeRun b 254 rest)) := by
  show rleEncodeFuel (b :: rest).length (b :: rest) = _
  simp only [List.length_cons, rleEncodeFuel, rle_encode]
  congr 1
  apply rleEncodeFuel_congr
  · rw [List.length_drop]
    omega
  · exact Nat.le_refl _

/-- The bytes skipped by the run extension are all equal to the run's byte. -/
theorem takeRun_take (b fuel : Nat) (l : List Nat) :
    l.take (takeRun b fuel l) = List.replicate (takeRun b fuel l) b := by
  induction l generalizing fuel with
  | nil => cases fuel <;> simp [takeRun]
  | cons x xs ih =>
    cases fuel with
    | zero => simp [takeRun]
    | succ f =>
      simp only [takeRun]
      split
      · rename_i hx
        rw [Nat.one_add, List.take_succ_cons, List.replicate_succ, hx, ih f]
      · simp

/-- When the run extension stops short of its fuel, the next byte (if any)
differs from the run's byte. -/
theorem takeRun_stop (b fuel : Nat) (l : List Nat) (x : Nat) (xs : List Nat)
    (hd : l.drop (takeRun b fuel l) = x :: xs) (hlt : takeRun b fuel l < fuel) :
    x ≠ b := by
  induction l generalizing fuel with
  | nil =>
    rw [List.drop_nil] at hd
    exact absurd hd (by simp)
  | cons y ys ih =>
    cases fuel with
    | zero => simp [takeRun] at hlt
    | succ f =>
      simp only [takeRun] at hd hlt
      by_cases hy : y = b
      · rw [if_pos hy] at hd hlt
        rw [Nat.one_add, List.drop_succ_cons] at hd
        exact ih f hd (by omega)
      · rw [if_neg hy] at hd
        rw [List.drop_zero] at hd
        injection hd with h1 _
        exact h1 ▸ hy

/-- Round-trip of the compressor: expanding every emitted run reproduces the
input buffer exactly, in order. -/
theorem rleDecode_rle_encode (l : List Nat) : rleDecode (rle_encode l) = l := by
  match l with
  | [] => rfl
  | b :: rest =>
    have ih := rleDecode_rle_encode (rest.drop (takeRun b 254 rest))
    have ht := takeRun_take b 254 rest
    rw [rle_encode_cons, rleDecode_cons, ih, Nat.one_add, List.replicate_succ, ← ht,
      List.cons_append, List.take_append_drop]
termination_by l.length
decreasing_by
  simp only [List.length_drop, List.length_cons]
  omega

/-- The serialized stream is exactly two bytes per run. -/
theorem serializeRuns_length (rs : List (Nat × Nat)) :
    (serializeRuns rs).length = 2 * rs.length := by
  induction rs with
  | nil => rfl
  | cons r rs ih =>
    obtain ⟨c, v⟩ := r
    rw [serializeRuns_cons]
    simp only [List.length_cons, ih]
    omega

/-- The decoded length is the sum of the run counts. -/
theorem rleDecode_length (rs : List (Nat × Nat)) :
    (rleDecode rs).length = (rs.map Prod.fst).sum := by
  induction rs with
  | nil => rfl
  | cons r rs ih =>
    obtain ⟨c, v⟩ := r
    rw [rleDecode_cons]
    simp [ih]

/-- Every emitted run count is between 1 and 255. -/
theorem rle_encode_counts (l : List Nat) :
    ∀ r ∈ rle_encode l, 1 ≤ r.1 ∧ r.1 ≤ 255 := by
  match l with
  | [] =>
    rw [rle_encode_nil]
    simp
  | b :: rest =>
    have ih := rle_encode_counts (rest.drop (takeRun b 254 rest))
    have hf := takeRun_le_fuel b 254 rest
    rw [rle_encode_cons]
    simp only [List.mem_cons]
    rintro r (rfl | hr)
    · constructor <;> omega
    · exact ih r hr
termination_by l.length
decreasing_by
  simp only [List.length_drop, List.length_cons]
  omega

/-- Adjacent emitted runs share a value only when the earlier one was cut at
the 255 cap. -/
theorem rle_encode_chain (l : List Nat) :
    List.Chain' (fun r₁ r₂ => r₁.2 = r₂.2 → r₁.1 = 255) (rle_encode l) := by
  match l with
  | [] =>
    rw [rle_encode_nil]
    simp
  | b :: rest =>
    have ih := rle_encode_chain (rest.drop (takeRun b 254 rest))
    rw [rle_encode_cons, List.chain'_cons']
    refine ⟨?_, ih⟩
    intro y hy hval
    have hle := takeRun_le_fuel b 254 rest
    match hrd : rest.drop (takeRun b 254 rest) with
    | [] =>
      rw [hrd, rle_encode_nil] at hy
      simp at hy
    | x :: xs =>
      rw [hrd, rle_encode_cons] at hy
      simp only [List.head?_cons, Option.mem_def, Option.some.injEq] at hy
      rcases Nat.lt_or_ge (takeRun b 254 rest) 254 with hlt | hge
      · exfalso
        apply takeRun_stop b 254 rest x xs hrd hlt
        rw [← hy] at hval
        exact hval.symm
      · omega
termination_by l.length
decreasing_by
  simp only [List.length_drop, List.length_cons]
  omega

/-- When no two adjacent bytes are equal every run has count 1. -/
theorem rle_encode_of_chain_ne (l : List Nat) (h : List.Chain' (fun a b => a ≠ b) l) :
    rle_encode l = l.map (fun b => (1, b)) := by
  match l with
  | [] => rfl
  | b :: rest =>
    rw [List.chain'_cons'] at h
    obtain ⟨hhd, htl⟩ := h
    have hz : takeRun b 254 rest = 0 := by
      match rest with
      | [] => rfl
      | x :: xs =>
        have hbx : b ≠ x := hhd x rfl
        simp only [takeRun]
        rw [if_neg (fun hxb => hbx hxb.symm)]
    have ih := rle_encode_of_chain_ne rest htl
    rw [rle_encode_cons, hz, List.drop_zero, List.map_cons, ih]
termination_by l.length
decreasing_by
  simp only [List.length_cons]
  omega

/-- On a constant buffer the run extension consumes `min fuel n` bytes. -/
theorem takeRun_replicate (b fuel n : Nat) :
    takeRun b fuel (List.replicate n b) = min fuel n := by
  induction n generalizing fuel with
  | zero => cases fuel <;> simp [takeRun]
  | succ m ih =>
    cases fuel with
    | zero => simp [takeRun]
    | succ f =>
      simp only [List.replicate_succ, takeRun, ih f, if_pos]
      omega

/-- Number of runs on a constant buffer of length `L`: exactly `⌈L/255⌉`. -/
theorem rle_encode_replicate_length (L b : Nat) :
    (rle_encode (List.replicate L b)).length = (L + 254) / 255 := by
  cases L with
  | zero => rfl
  | succ m =>
    have hk := takeRun_replicate b 254 m
    rw [List.replicate_succ, rle_encode_cons, hk, List.drop_replicate]
    simp only [List.length_cons]
    rcases Nat.lt_or_ge m 254 with hm | hm
    · rw [Nat.min_eq_right (Nat.le_of_lt hm), Nat.sub_self]
      simp only [List.replicate_zero, rle_encode_nil, List.length_nil]
      omega
    · rw [Nat.min_eq_left hm]
      have ih := rle_encode_replicate_length (m - 254) b
      rw [ih]
      omega
termination_by L
decreasing_by omega

/-- The `compress` loop never writes to the buffer: its data field is the
same list at exit as at entry. -/
theorem compressRun_data (s : CompressState) : (compressRun s).data = s.data := by
  rw [compressRun]
  split
  · rw [compressRun_data (compressStep s)]
    simp [compressStep]
  · rfl
termination_by s.data.length - s.i
decreasing_by
  simp only [compressStep]
  omega

/-- The `compress` loop writes exactly the serialized run sequence of the
part of the buffer from the scan index on. -/
theorem compressRun_out (s : CompressState) (h : s.i ≤ s.data.length) :
    (compressRun s).out = s.out ++ serializeRuns (rle_encode (s.data.drop s.i)) := by
  rw [compressRun]
  split
  · rename_i hlt
    have hdrop := List.drop_eq_getElem_cons hlt
    have htr := takeRun_le_length (s.data[s.i]) 254 (s.data.drop (s.i + 1))
    rw [List.length_drop] at htr
    have hget : s.data.getD s.i 0 = s.data[s.i] := List.getD_eq_getElem s.data 0 hlt
    have hre := compressRun_out (compressStep s) (by
      simp only [compressStep, hget]
      omega)
    rw [hre]
    simp only [compressStep, hget]
    rw [hdrop, rle_encode_cons, serializeRuns_cons, List.drop_drop]
    rw [show s.i + 1 + takeRun (s.data[s.i]) 254 (List.drop (s.i + 1) s.data)
        = s.i + (1 + takeRun (s.data[s.i]) 254 (List.drop (s.i + 1) s.data)) by omega]
    simp [List.append_assoc]
  · rename_i hge
    rw [List.drop_eq_nil_of_le (by omega), rle_encode_nil]
    simp [serializeRuns]
termination_by s.data.length - s.i
decreasing_by
  simp only [compressStep]
  omega

/-- Involution of the byte-level XOR store: encrypting one byte twice with the
same single-byte key gives the byte back. -/
theorem xorByte_involution (b K : Nat) (hb : b < 256) (hK : K < 256) :
    ((b ^^^ K) % 256 ^^^ K) % 256 = b := by
  have h1 : b ^^^ K < 256 := @Nat.xor_lt_two_pow b K 8 (by omega) (by omega)
  rw [Nat.mod_eq_of_lt h1, Nat.xor_cancel_right, Nat.mod_eq_of_lt hb]

/-- Involution of the XOR transform over a whole byte buffer. -/
theorem xorTransform_involution (K : Nat) (hK : K < 256) :
    ∀ B : List Nat, (∀ b ∈ B, b < 256) → xorTransform K (xorTransform K B) = B := by
  intro B
  induction B with
  | nil => intro _; rfl
  | cons b bs ih =>
    intro hB
    simp only [xorTransform, List.map_cons]
    rw [xorByte_involution b K (hB b (by simp)) hK]
    have hbs := ih (fun x hx => hB x (by simp [hx]))
    simp only [xorTransform] at hbs
    rw [hbs]

/-- Closed form of `pad_to_sector`: it appends `(512 - n % 512) % 512` zero
bytes and reports the padded length in sectors. -/
theorem pad_to_sector_eq (n : Nat) :
    pad_to_sector n
      = (List.replicate ((512 - n % 512) % 512) 0, (n + (512 - n % 512) % 512) / 512) := by
  have hlt : n % 512 < 512 := Nat.mod_lt n (by norm_num)
  simp only [pad_to_sector, SECTOR_SIZE]
  split
  · rename_i hne
    rw [Nat.mod_eq_of_lt (by omega : 512 - n % 512 < 512)]
  · rename_i heq
    have h0 : n % 512 = 0 := by omega
    simp [h0]

/-- C1: for every non-empty byte buffer, expanding each run produced by
`rle_encode` into `count` copies of `value` and concatenating them in emission
order reproduces the buffer exactly, with no gaps or overlaps. -/
theorem C1_rle_roundtrip (B : List Nat) (h : B ≠ []) :
    rleDecode (rle_encode B) = B :=
  rleDecode_rle_encode B

/-- Witness for C1 at the concrete buffer [0xC3, 0xC3, 0xC3]. -/
theorem C1_rle_roundtrip_witness :
    rleDecode (rle_encode [0xC3, 0xC3, 0xC3]) = [0xC3, 0xC3, 0xC3] :=
  C1_rle_roundtrip [0xC3, 0xC3, 0xC3] (by decide)

/-- C2: for every byte buffer (any length, including empty) and every
single-byte key, applying the XOR transform twice with the same key restores
the buffer; in particular `encrypt` (key 0x69) is self-inverse. -/
theorem C2_xor_involution (B : List Nat) (K : Nat) (hK : K < 256)
    (hB : ∀ b ∈ B, b < 256) :
    xorTransform K (xorTransform K B) = B ∧ encrypt (encrypt B) = B := by
  refine ⟨xorTransform_involution K hK B hB, ?_⟩
  exact xorTransform_involution XOR_KEY (by norm_num [XOR_KEY]) B hB

/-- Witness for C2 at key 0x69 and the buffer [0xAA, 0x00, 0xFF]. -/
theorem C2_xor_involution_witness :
    xorTransform 0x69 (xorTransform 0x69 [0xAA, 0x00, 0xFF]) = [0xAA, 0x00, 0xFF]
    ∧ encrypt (encrypt [0xAA, 0x00, 0xFF]) = [0xAA, 0x00, 0xFF] :=
  C2_xor_involution [0xAA, 0x00, 0xFF] 0x69 (by decide) (by decide)

/-- C3: for every `current_length`, `pad_to_sector` pads to a total that is a
multiple of 512, at least `current_length` and less than `current_length+512`
(hence the smallest such multiple); the appended bytes are all zero; when
`current_length` is an exact multiple nothing is appended and the reported
sector count is `current_length / 512`; in general the reported count is the
padded total divided by 512. -/
theorem C3_pad_to_sector (current_length : Nat) :
    (current_length + (pad_to_sector current_length).1.length) % 512 = 0
    ∧ current_length ≤ current_length + (pad_to_sector current_length).1.length
    ∧ current_length + (pad_to_sector current_length).1.length < current_length + 512
    ∧ (∀ b ∈ (pad_to_sector current_length).1, b = 0)
    ∧ (current_length % 512 = 0 →
        (pad_to_sector current_length).1 = []
        ∧ (pad_to_sector current_length).2 = current_length / 512)
    ∧ (pad_to_sector current_length).2
        = (current_length + (pad_to_sector current_length).1.length) / 512 := by
  have hlt : current_length % 512 < 512 := Nat.mod_lt _ (by norm_num)
  rw [pad_to_sector_eq]
  simp only [List.length_replicate]
  refine ⟨by omega, by omega, by omega, ?_, ?_, by trivial⟩
  · intro b hb
    exact List.eq_of_mem_replicate hb
  · intro h0
    exact ⟨by simp [h0], by simp [h0]⟩

/-- C4: every emitted run has count in [1,255]; two consecutive emitted runs
carry the same value only when the earlier one was cut at the 255 cap (the
underlying run of identical bytes was longer than 255); and the emitted counts
sum to the buffer length, so the runs cover the buffer with no byte
double-counted or skipped. -/
theorem C4_run_invariants (B : List Nat) :
    (∀ r ∈ rle_encode B, 1 ≤ r.1 ∧ r.1 ≤ 255)
    ∧ List.Chain' (fun r₁ r₂ => r₁.2 = r₂.2 → r₁.1 = 255) (rle_encode B)
    ∧ ((rle_encode B).map Prod.fst).sum = B.length := by
  refine ⟨rle_encode_counts B, rle_encode_chain B, ?_⟩
  rw [← rleDecode_length, rleDecode_rle_encode]

set_option maxRecDepth 8192 in
/-- C5: the output file is exactly the 2-byte run records (count byte then
value byte, counts in [1,255]) covering the XOR-encrypted input in original
order, followed by zero padding up to a multiple of 512 — nothing else (no
magic number, version tag or length field); on input [0xAA,0xAA,0xAA] with
key 0x69 the encrypted buffer is [0xC3,0xC3,0xC3], the compressed stream is
[0x03,0xC3], and the output is 512 bytes with 1 sector reported. -/
theorem C5_output_format (input : List Nat) :
    pack input
      = compress (encrypt input)
        ++ List.replicate ((512 - (compress (encrypt input)).length % 512) % 512) 0
    ∧ (pack input).length % 512 = 0
    ∧ rleDecode (rle_encode (encrypt input)) = encrypt input
    ∧ (∀ r ∈ rle_encode (encrypt input), 1 ≤ r.1 ∧ r.1 ≤ 255)
    ∧ encrypt [0xAA, 0xAA, 0xAA] = [0xC3, 0xC3, 0xC3]
    ∧ compressedBytes [0xAA, 0xAA, 0xAA] = [0x03, 0xC3]
    ∧ pack [0xAA, 0xAA, 0xAA] = 0x03 :: 0xC3 :: List.replicate 510 0
    ∧ (pack [0xAA, 0xAA, 0xAA]).length = 512
    ∧ sectors [0xAA, 0xAA, 0xAA] = 1 := by
  refine ⟨?_, ?_, rleDecode_rle_encode _, rle_encode_counts _,
    by decide, by decide, ?_, ?_, by decide⟩
  · rw [pack, compressedBytes, pad_to_sector_eq]
  · rw [pack]
    simp only [List.length_append]
    rw [pad_to_sector_eq]
    simp only [List.length_replicate]
    omega
  · decide
  · decide

/-- C6: the compressed stream is exactly 2 bytes per emitted run, at least 2
bytes for a non-empty buffer, and exactly twice the input length when no two
adjacent bytes are equal (every run then has count 1). -/
theorem C6_size_bound (B : List Nat) :
    (compress B).length = 2 * (rle_encode B).length
    ∧ (B ≠ [] → 2 ≤ (compress B).length)
    ∧ (List.Chain' (fun a b => a ≠ b) B → (compress B).length = 2 * B.length) := by
  refine ⟨serializeRuns_length _, ?_, ?_⟩
  · intro hne
    rw [compress, serializeRuns_length]
    match B, hne with
    | b :: rest, _ =>
      rw [rle_encode_cons]
      simp only [List.length_cons]
      omega
  · intro hch
    rw [compress, serializeRuns_length, rle_encode_of_chain_ne B hch, List.length_map]

set_option maxRecDepth 8192 in
/-- C7: a non-empty constant buffer of length L compresses to exactly
⌈L/255⌉ runs; in particular 256 identical 0x00 bytes encrypted with key 0x69
compress to the four bytes [0xFF, 0x69, 0x01, 0x69]. -/
theorem C7_constant_buffer (L value : Nat) (h : 0 < L) :
    (rle_encode (List.replicate L value)).length = (L + 254) / 255
    ∧ encrypt (List.replicate 256 0x00) = List.replicate 256 0x69
    ∧ compressedBytes (List.replicate 256 0x00) = [0xFF, 0x69, 0x01, 0x69] :=
  ⟨rle_encode_replicate_length L value, by decide, by decide⟩

/-- Witness for C7 at L = 256 identical bytes 0x69. -/
theorem C7_constant_buffer_witness :
    (rle_encode (List.replicate 256 0x69)).length = (256 + 254) / 255
    ∧ encrypt (List.replicate 256 0x00) = List.replicate 256 0x69
    ∧ compressedBytes (List.replicate 256 0x00) = [0xFF, 0x69, 0x01, 0x69] :=
  C7_constant_buffer 256 0x69 (by decide)

/-- C8: on a length-0 input `main` reports the error, closes both file
handles, exits with code 1, and writes nothing to the output. -/
theorem C8_empty_input :
    (mainRun []).2 = 1
    ∧ (mainRun []).1
        = [Event.openIn, Event.openOut, Event.errMsg, Event.closeIn, Event.closeOut]
    ∧ Event.closeIn ∈ (mainRun []).1
    ∧ Event.closeOut ∈ (mainRun []).1
    ∧ ∀ b : Nat, Event.writeOut b ∉ (mainRun []).1 := by
  refine ⟨rfl, rfl, by decide, by decide, fun b => ?_⟩
  simp [mainRun]

/-- C9: the compression loop never writes to the buffer it reads — after the
loop the buffer is the same list it started with — while its output is the
full serialized run stream. -/
theorem C9_compress_frame (data : List Nat) :
    (compressRun { data := data, i := 0, out := [] }).data = data
    ∧ (compressRun { data := data, i := 0, out := [] }).out = compress data := by
  refine ⟨compressRun_data _, ?_⟩
  have hout := compressRun_out { data := data, i := 0, out := [] } (by simp)
  simpa [compress] using hout

/-- C10: the pipeline is deterministic — equal inputs give byte-identical
packed output, identical reported sizes and sector counts, and identical
event traces. -/
theorem C10_deterministic (B₁ B₂ : List Nat) (h : B₁ = B₂) :
    pack B₁ = pack B₂ ∧ report B₁ = report B₂ ∧ mainRun B₁ = mainRun B₂ := by
  subst h
  exact ⟨rfl, rfl, rfl⟩

/-- Witness for C10 at two copies of the buffer [0xAA, 0xBB]. -/
theorem C10_deterministic_witness :
    pack [0xAA, 0xBB] = pack [0xAA, 0xBB]
    ∧ report [0xAA, 0xBB] = report [0xAA, 0xBB]
    ∧ mainRun [0xAA, 0xBB] = mainRun [0xAA, 0xBB] :=
  C10_deterministic [0xAA, 0xBB] [0xAA, 0xBB] rfl

end Packer
